import Mathlib

/-!
# Shallow embedding of the go-xmldom tree builder

This file embeds the token-to-tree construction algorithm of `dom.go`
(`domParserSettings.Parse`) from the go-xmldom repository.

Modelling decisions:

* The Go `encoding/xml` token source is modelled abstractly, exactly as the
  builder sees it: a finite list of tokens followed by a terminal condition,
  which is either end-of-input (`io.EOF`) or some other error.  A call to
  `Decoder.Token` yields the next token of the list, or — once the list is
  exhausted — the terminal error.
* Go heap pointers (`*Node`) are modelled by an arena: the list of all nodes
  allocated so far, in allocation order, with `Option Nat` indices playing
  the role of possibly-nil pointers.  Mutation through a pointer becomes an
  update of the arena entry at that index.
* A Go `nil`-pointer dereference (a runtime panic) is modelled by the result
  `Option.none`: `step` and `runTokens` return `none` exactly when the Go
  code would panic, and `some` of the successor state otherwise.
* `bytes.TrimSpace` is modelled by `trimSpace` below, dropping the same
  set of Unicode white-space code points from both ends.
-/

namespace Xmldom

/-- Go constant `xmlUrl` (the prefix constant `xml` is inlined below). -/
def xmlUrl : String := "http://www.w3.org/XML/1998/namespace"

/-- Go constant `xmlnsUrl` (the prefix constant `xmlns` is inlined below). -/
def xmlnsUrl : String := "http://www.w3.org/2000/xmlns"

/-- Go constant `xlinkUrl` (the prefix constant `xlink` is inlined below). -/
def xlinkUrl : String := "http://www.w3.org/1999/xlink"

/-- Go constant `xsiUrl` (the prefix constant `xsi` is inlined below). -/
def xsiUrl : String := "http://www.w3.org/2001/XMLSchema-instance"

/-- Go `xml.Name`: `Space` is the namespace field the token source associates
with the name, `Local` the local name. -/
structure XmlName where
  Space : String
  Local : String
deriving DecidableEq, Repr

/-- Go `xml.Attr`: one raw attribute of a start-element token. -/
structure XmlAttr where
  Name : XmlName
  Value : String
deriving DecidableEq, Repr

/-- The tokens `encoding/xml.Decoder.Token` can produce, as consumed by the
type switch of `Parse` (dom.go lines 108–162).  `comment` (Go `xml.Comment`)
is the token kind the switch has no case for. -/
inductive Token where
  | startElement (name : XmlName) (attrs : List XmlAttr)
  | endElement (name : XmlName)
  | charData (data : String)
  | procInst (target : String) (inst : String)
  | directive (data : String)
  | comment (data : String)
deriving DecidableEq, Repr

/-- The terminal condition of the token source: `eof` models `io.EOF`,
`other` models any other error value returned by `Decoder.Token`. -/
inductive XmlError where
  | eof
  | other (msg : String)
deriving DecidableEq, Repr

/-- Go struct `Attribute` (declared outside dom.go; fields `Name`, `Value`
as used by dom.go lines 134–137). -/
structure Attribute where
  Name : String
  Value : String
deriving DecidableEq, Repr

/-- Go struct `Node`, with the pointer fields turned into arena indices:
`Parent` is the index of the parent node (Go `*Node`, `nil` ↦ `none`),
`Children` the indices of the children in order.  The `Document`
back-pointer field is omitted: there is a single document per parse and the
field is never read by the builder. -/
structure Node where
  Parent : Option Nat
  Name : String
  Attributes : List Attribute
  Children : List Nat
  Text : String
deriving DecidableEq, Repr

/-- Go struct `Document` as the builder populates it, together with the
arena `nodes` holding every `Node` allocated during the parse (allocation
order = the order the corresponding start-element tokens were processed).
`Root` is the arena index of the root node, or `none`. -/
structure Document where
  nodes : List Node
  Root : Option Nat
  ProcInst : String
  Directives : List String
deriving DecidableEq, Repr

/-- State of the build loop: the document under construction plus the
cursor `e` of dom.go (the most recently opened, not yet closed element). -/
structure BuildState where
  nodes : List Node
  Root : Option Nat
  ProcInst : String
  Directives : List String
  cursor : Option Nat
deriving DecidableEq, Repr

/-- Go `doc := new(Document)`, `var e *Node` (dom.go lines 105–106): empty
arena, no root, zero-valued strings, nil cursor. -/
def initState : BuildState :=
  { nodes := [], Root := none, ProcInst := "", Directives := [], cursor := none }

/-- Forget the cursor, keeping the Go `Document` that `Parse` returns. -/
def extractDoc (st : BuildState) : Document :=
  { nodes := st.nodes, Root := st.Root, ProcInst := st.ProcInst,
    Directives := st.Directives }

/-- Go `unicode.IsSpace`: the Unicode White_Space property.  The Latin-1
cases of Go's switch (`'\t'`, `'\n'`, `'\v'`, `'\f'`, `'\r'`, `' '`,
U+0085, U+00A0) plus the non-Latin-1 entries of Go's `White_Space` range
table: U+1680, U+2000–U+200A, U+2028, U+2029, U+202F, U+205F, U+3000. -/
def isSpace (c : Char) : Bool :=
  c = ' ' || c = '\t' || c = '\n' || c = (Char.ofNat 11) || c = (Char.ofNat 12) ||
  c = '\r' || c = (Char.ofNat 0x85) || c = (Char.ofNat 0xA0) ||
  c = (Char.ofNat 0x1680) ||
  (0x2000 ≤ c.toNat && c.toNat ≤ 0x200A) ||
  c = (Char.ofNat 0x2028) || c = (Char.ofNat 0x2029) ||
  c = (Char.ofNat 0x202F) || c = (Char.ofNat 0x205F) ||
  c = (Char.ofNat 0x3000)

/-- Go `bytes.TrimSpace`: drop every `unicode.IsSpace` rune from both
ends. -/
def trimSpace (s : String) : String :=
  String.mk (((s.toList.dropWhile isSpace).reverse.dropWhile isSpace).reverse)

/-- The attribute-name computation of dom.go lines 115–133: if the token's
namespace field is non-empty, map the four reserved URLs to their fixed
prefixes (`xmlns`, `xml`, `xlink`, `xsi`), any other value being used
verbatim; compose `name` as `<px>:<local>`.  An attribute with an empty
namespace field keeps its bare local name. -/
def attrName (a : XmlAttr) : String :=
  if a.Name.Space ≠ "" then
    if a.Name.Space = xmlnsUrl then "xmlns" ++ ":" ++ a.Name.Local
    else if a.Name.Space = xmlUrl then "xml" ++ ":" ++ a.Name.Local
    else if a.Name.Space = xlinkUrl then "xlink" ++ ":" ++ a.Name.Local
    else if a.Name.Space = xsiUrl then "xsi" ++ ":" ++ a.Name.Local
    else a.Name.Space ++ ":" ++ a.Name.Local
  else a.Name.Local

/-- The stored `Attribute` built from one raw token attribute
(dom.go lines 134–137). -/
def mkAttribute (a : XmlAttr) : Attribute :=
  { Name := attrName a, Value := a.Value }

/-- Modelled from the spec: `stringifyProcInst` is declared outside the
provided source files; per the spec a processing-instruction token is
\"stringified\" raw, modelled here as the target and the instruction text
joined by one space. -/
def stringifyProcInst (target inst : String) : String :=
  target ++ " " ++ inst

/-- Modelled from the spec: `stringifyDirective` is declared outside the
provided source files; per the spec a directive is kept as its raw string. -/
def stringifyDirective (data : String) : String :=
  data

/-- Update the arena entry at index `i` (mutation through a Go pointer);
out-of-range indices leave the arena unchanged. -/
def modifyNode (ns : List Node) (i : Nat) (f : Node → Node) : List Node :=
  match ns, i with
  | [], _ => []
  | nd :: rest, 0 => f nd :: rest
  | nd :: rest, j + 1 => nd :: modifyNode rest j f

/-- One iteration of the token loop of dom.go lines 107–162 on token `t`,
with `preserve` the `preserveWhitespace` setting.  Returns `none` exactly
when the Go code dereferences a nil pointer (end-element with nil cursor,
line 148). -/
def step (preserve : Bool) (st : BuildState) (t : Token) : Option BuildState :=
  match t with
  | Token.startElement name attrs =>
      -- lines 109–146: allocate the node at the next arena index
      let newIdx := st.nodes.length
      let el : Node :=
        { Parent := st.cursor, Name := name.Local,
          Attributes := attrs.map mkAttribute, Children := [], Text := "" }
      let nodes1 := st.nodes ++ [el]
      let nodes2 :=
        match st.cursor with
        | some p => modifyNode nodes1 p
            (fun nd => { nd with Children := nd.Children ++ [newIdx] })
        | none => nodes1
      some { st with
              nodes := nodes2,
              cursor := some newIdx,
              Root := match st.Root with
                      | none => some newIdx
                      | some r => some r }
  | Token.endElement _ =>
      -- lines 147–148: `e = e.Parent`; nil cursor means a panic
      match st.cursor with
      | none => none
      | some i =>
        match st.nodes[i]? with
        | none => none
        | some nd => some { st with cursor := nd.Parent }
  | Token.charData data =>
      -- lines 149–157
      match st.cursor with
      | none => some st
      | some i =>
        some { st with
                nodes := modifyNode st.nodes i
                  (fun nd =>
                    { nd with Text := if preserve then data else trimSpace data }) }
  | Token.procInst target inst =>
      -- lines 158–159
      some { st with ProcInst := stringifyProcInst target inst }
  | Token.directive data =>
      -- lines 160–161
      some { st with Directives := st.Directives ++ [stringifyDirective data] }
  | Token.comment _ =>
      -- no case in the type switch: the token is skipped
      some st

/-- The token loop: fold `step` over the tokens the source produces,
propagating a panic. -/
def runTokens (preserve : Bool) (st : BuildState) : List Token → Option BuildState
  | [] => some st
  | t :: rest =>
    match step preserve st t with
    | none => none
    | some st1 => runTokens preserve st1 rest

/-- Go `domParserSettings.Parse` (dom.go lines 98–175) over the abstract token
source `tokens, stop`: the first pull failing — also with `io.EOF` — is
returned as an error (lines 100–103); otherwise the loop consumes every
token and the terminal condition must be `eof` (lines 168–171).  The outer
`Option` models a Go panic (`none`). -/
def Parse (preserve : Bool) (tokens : List Token) (stop : XmlError) :
    Option (Except XmlError Document) :=
  match tokens with
  | [] => some (Except.error stop)
  | _ :: _ =>
    match runTokens preserve initState tokens with
    | none => none
    | some st =>
      if stop = XmlError.eof then some (Except.ok (extractDoc st))
      else some (Except.error stop)

/-- Test for a start-element token. -/
def isStart : Token → Bool
  | Token.startElement _ _ => true
  | _ => false

/-- Balance condition of a token list at open depth `d`: every end-element
token arrives while at least one element opened in the list (or among the
`d` initially open ones) is still open. -/
def okEnds : Nat → List Token → Bool
  | _, [] => true
  | d, Token.startElement _ _ :: rest => okEnds (d + 1) rest
  | d, Token.endElement _ :: rest =>
      match d with
      | 0 => false
      | d' + 1 => okEnds d' rest
  | d, _ :: rest => okEnds d rest

/-- Structural invariant of the arena: children lists are strictly
increasing (allocation order = document order, no duplicates), each child
is a later allocation than its parent and points back to it, and each
node's parent is an earlier allocation listing it among its children. -/
def TreeInv (ns : List Node) : Prop :=
  ∀ (i : Nat) (nd : Node), ns[i]? = some nd →
    nd.Children.Pairwise (fun a b => a < b) ∧
    (∀ c ∈ nd.Children, i < c ∧ ∃ cd : Node, ns[c]? = some cd ∧ cd.Parent = some i) ∧
    (∀ p, nd.Parent = some p → p < i ∧ ∃ pd : Node, ns[p]? = some pd ∧ i ∈ pd.Children)

/-- The cursor, when set, points into the arena. -/
def CursorOk (st : BuildState) : Prop :=
  ∀ i, st.cursor = some i → i < st.nodes.length

/-- The chain of `Parent` links starting at the (optional) index `c` in
arena `ns` has length `d`; this is the number of currently open elements. -/
inductive ChainFrom (ns : List Node) : Option Nat → Nat → Prop where
  | nil : ChainFrom ns none 0
  | cons (i : Nat) (nd : Node) (d : Nat) :
      ns[i]? = some nd → ChainFrom ns nd.Parent d → ChainFrom ns (some i) (d + 1)

/-! ## Arena lemmas -/

theorem modifyNode_length (ns : List Node) (i : Nat) (f : Node → Node) :
    (modifyNode ns i f).length = ns.length := by
  induction ns generalizing i with
  | nil => rfl
  | cons nd rest ih =>
    cases i with
    | zero => rfl
    | succ j => simpa [modifyNode] using ih j

theorem getElem_modifyNode_self (ns : List Node) (i : Nat) (f : Node → Node) :
    (modifyNode ns i f)[i]? = (ns[i]?).map f := by
  induction ns generalizing i with
  | nil => cases i <;> rfl
  | cons nd rest ih =>
    cases i with
    | zero => simp [modifyNode]
    | succ j => simpa [modifyNode] using ih j

theorem getElem_modifyNode_ne (ns : List Node) (i j : Nat) (f : Node → Node)
    (h : j ≠ i) : (modifyNode ns i f)[j]? = ns[j]? := by
  induction ns generalizing i j with
  | nil => cases i <;> rfl
  | cons nd rest ih =>
    cases i with
    | zero =>
      cases j with
      | zero => exact absurd rfl h
      | succ j1 => rfl
    | succ i1 =>
      cases j with
      | zero => simp [modifyNode]
      | succ j1 =>
        have : j1 ≠ i1 := fun he => h (by simp [he])
        simpa [modifyNode] using ih i1 j1 this

theorem getElem_append_lt (ns : List Node) (a : Node) (j : Nat)
    (h : j < ns.length) : (ns ++ [a])[j]? = ns[j]? := by
  rw [List.getElem?_append]
  simp [h]

theorem lt_length_of_getElem {ns : List Node} {j : Nat} {x : Node}
    (h : ns[j]? = some x) : j < ns.length :=
  (List.getElem?_eq_some.mp h).1

/-! ## Step preservation lemmas -/

/-- One step never changes the `Parent`, `Name` or `Attributes` of an
already-allocated node, only ever appends to its `Children`, never shrinks
the arena, and never unsets or moves the root. -/
theorem step_keep {preserve : Bool} {st st1 : BuildState} {t : Token}
    (h : step preserve st t = some st1) :
    (∀ (j : Nat) (nd : Node), st.nodes[j]? = some nd →
       ∃ nd1 : Node, st1.nodes[j]? = some nd1 ∧
       nd1.Parent = nd.Parent ∧ nd1.Name = nd.Name ∧
       nd1.Attributes = nd.Attributes ∧
       ∃ tail : List Nat, nd1.Children = nd.Children ++ tail) ∧
    st.nodes.length ≤ st1.nodes.length ∧
    (∀ r : Nat, st.Root = some r → st1.Root = some r) := by
  cases t with
  | startElement name attrs =>
    cases hc : st.cursor with
    | none =>
      simp only [step, hc] at h
      cases h
      refine ⟨?_, by simp, ?_⟩
      · intro j nd hj
        refine ⟨nd, ?_, rfl, rfl, rfl, [], by simp⟩
        rw [getElem_append_lt st.nodes _ j (lt_length_of_getElem hj)]
        exact hj
      · intro r hr
        simp [hr]
    | some p =>
      simp only [step, hc] at h
      cases h
      constructor
      · intro j nd hj
        by_cases hjp : j = p
        · subst hjp
          refine ⟨{ nd with Children := nd.Children ++ [st.nodes.length] },
            ?_, rfl, rfl, rfl, [st.nodes.length], rfl⟩
          rw [getElem_modifyNode_self,
            getElem_append_lt st.nodes _ j (lt_length_of_getElem hj), hj]
          rfl
        · refine ⟨nd, ?_, rfl, rfl, rfl, [], by simp⟩
          rw [getElem_modifyNode_ne _ _ _ _ hjp,
            getElem_append_lt st.nodes _ j (lt_length_of_getElem hj)]
          exact hj
      · constructor
        · simp [modifyNode_length]
        · intro r hr
          simp [hr]
  | endElement name =>
    cases hc : st.cursor with
    | none => simp [step, hc] at h
    | some i =>
      cases hi : st.nodes[i]? with
      | none => simp [step, hc, hi] at h
      | some nd =>
        simp only [step, hc, hi] at h
        cases h
        exact ⟨fun j nd hj => ⟨nd, hj, rfl, rfl, rfl, [], by simp⟩,
               le_refl _, fun r hr => hr⟩
  | charData data =>
    cases hc : st.cursor with
    | none =>
      simp only [step, hc] at h
      cases h
      exact ⟨fun j nd hj => ⟨nd, hj, rfl, rfl, rfl, [], by simp⟩,
             le_refl _, fun r hr => hr⟩
    | some i =>
      simp only [step, hc] at h
      cases h
      refine ⟨?_, by simp [modifyNode_length], fun r hr => hr⟩
      intro j nd hj
      by_cases hji : j = i
      · subst hji
        refine ⟨{ nd with Text := if preserve then data else trimSpace data },
          ?_, rfl, rfl, rfl, [], by simp⟩
        rw [getElem_modifyNode_self, hj]
        rfl
      · exact ⟨nd, by rw [getElem_modifyNode_ne _ _ _ _ hji]; exact hj,
               rfl, rfl, rfl, [], by simp⟩
  | procInst target inst =>
    simp only [step] at h
    cases h
    exact ⟨fun j nd hj => ⟨nd, hj, rfl, rfl, rfl, [], by simp⟩,
           le_refl _, fun r hr => hr⟩
  | directive data =>
    simp only [step] at h
    cases h
    exact ⟨fun j nd hj => ⟨nd, hj, rfl, rfl, rfl, [], by simp⟩,
           le_refl _, fun r hr => hr⟩
  | comment data =>
    simp only [step] at h
    cases h
    exact ⟨fun j nd hj => ⟨nd, hj, rfl, rfl, rfl, [], by simp⟩,
           le_refl _, fun r hr => hr⟩

/-- A parent chain survives any arena transformation that preserves the
`Parent` field of every existing node. -/
theorem chainFrom_mono {ns ns1 : List Node} {c : Option Nat} {d : Nat}
    (hkeep : ∀ (j : Nat) (nd : Node), ns[j]? = some nd →
       ∃ nd1 : Node, ns1[j]? = some nd1 ∧ nd1.Parent = nd.Parent)
    (h : ChainFrom ns c d) : ChainFrom ns1 c d := by
  induction h with
  | nil => exact ChainFrom.nil
  | cons i nd d hget hch ih =>
    obtain ⟨nd1, hg1, hp1⟩ := hkeep i nd hget
    exact ChainFrom.cons i nd1 d hg1 (hp1 ▸ ih)

/-! ## Run-level lemmas -/

theorem runTokens_append (preserve : Bool) (st : BuildState)
    (xs ys : List Token) :
    runTokens preserve st (xs ++ ys) =
      match runTokens preserve st xs with
      | none => none
      | some st1 => runTokens preserve st1 ys := by
  induction xs generalizing st with
  | nil => rfl
  | cons t rest ih =>
    simp only [List.cons_append, runTokens]
    cases step preserve st t with
    | none => rfl
    | some st1 => exact ih st1

/-- Lemma `step_keep`, transported along a whole run. -/
theorem runTokens_keep {preserve : Bool} {st st1 : BuildState}
    {tokens : List Token}
    (h : runTokens preserve st tokens = some st1) :
    (∀ (j : Nat) (nd : Node), st.nodes[j]? = some nd →
       ∃ nd1 : Node, st1.nodes[j]? = some nd1 ∧
       nd1.Parent = nd.Parent ∧ nd1.Name = nd.Name ∧
       nd1.Attributes = nd.Attributes ∧
       ∃ tail : List Nat, nd1.Children = nd.Children ++ tail) ∧
    (∀ r : Nat, st.Root = some r → st1.Root = some r) := by
  induction tokens generalizing st with
  | nil =>
    cases h
    exact ⟨fun j nd hj => ⟨nd, hj, rfl, rfl, rfl, [], by simp⟩, fun r hr => hr⟩
  | cons t rest ih =>
    simp only [runTokens] at h
    cases hs : step preserve st t with
    | none => rw [hs] at h; cases h
    | some st2 =>
      rw [hs] at h
      obtain ⟨hkeep2, _, hroot2⟩ := step_keep hs
      obtain ⟨hkeep1, hroot1⟩ := ih h
      refine ⟨?_, fun r hr => hroot1 r (hroot2 r hr)⟩
      intro j nd hj
      obtain ⟨nd2, hj2, hp2, hn2, ha2, t2, hc2⟩ := hkeep2 j nd hj
      obtain ⟨nd1, hj1, hp1, hn1, ha1, t1, hc1⟩ := hkeep1 j nd2 hj2
      refine ⟨nd1, hj1, hp1.trans hp2, hn1.trans hn2, ha1.trans ha2,
        t2 ++ t1, ?_⟩
      rw [hc1, hc2, List.append_assoc]

/-- The root becomes set exactly when a start-element token is processed. -/
theorem runTokens_root_isSome {preserve : Bool} {st st1 : BuildState}
    {tokens : List Token}
    (h : runTokens preserve st tokens = some st1) :
    st1.Root.isSome = (st.Root.isSome || tokens.any isStart) := by
  induction tokens generalizing st with
  | nil => cases h; simp
  | cons t rest ih =>
    simp only [runTokens] at h
    cases hs : step preserve st t with
    | none => rw [hs] at h; cases h
    | some st2 =>
      rw [hs] at h
      have hrest := ih h
      cases t with
      | startElement name attrs =>
        have h2 : st2.Root.isSome = true := by
          cases hc : st.cursor <;> cases hr : st.Root <;>
            simp only [step, hc, hr] at hs <;> cases hs <;> simp
        simp [hrest, h2, isStart]
      | endElement name =>
        have h2 : st2.Root = st.Root := by
          cases hc : st.cursor with
          | none => simp [step, hc] at hs
          | some i =>
            cases hi : st.nodes[i]? with
            | none => simp [step, hc, hi] at hs
            | some nd => simp only [step, hc, hi] at hs; cases hs; rfl
        simp [hrest, h2, isStart]
      | charData data =>
        have h2 : st2.Root = st.Root := by
          cases hc : st.cursor <;> simp only [step, hc] at hs <;> cases hs <;> rfl
        simp [hrest, h2, isStart]
      | procInst target inst =>
        have h2 : st2.Root = st.Root := by
          simp only [step] at hs; cases hs; rfl
        simp [hrest, h2, isStart]
      | directive data =>
        have h2 : st2.Root = st.Root := by
          simp only [step] at hs; cases hs; rfl
        simp [hrest, h2, isStart]
      | comment data =>
        have h2 : st2.Root = st.Root := by
          simp only [step] at hs; cases hs; rfl
        simp [hrest, h2, isStart]

/-- Before the first start-element token, the build changes nothing but the
`ProcInst` and `Directives` fields: the arena stays empty of new nodes, the
cursor stays nil, the root stays as it was. -/
theorem runTokens_no_start {preserve : Bool} {st st1 : BuildState}
    {tokens : List Token}
    (hns : ∀ t ∈ tokens, isStart t = false)
    (hc : st.cursor = none)
    (h : runTokens preserve st tokens = some st1) :
    st1.nodes = st.nodes ∧ st1.cursor = none ∧ st1.Root = st.Root := by
  induction tokens generalizing st with
  | nil => cases h; exact ⟨rfl, hc, rfl⟩
  | cons t rest ih =>
    simp only [runTokens] at h
    cases t with
    | startElement name attrs =>
      exact absurd (hns (Token.startElement name attrs) (List.mem_cons_self _ _))
        (by simp [isStart])
    | endElement name => simp [step, hc] at h
    | charData data =>
      simp only [step, hc] at h
      exact ih (fun t ht => hns t (List.mem_cons_of_mem _ ht)) hc h
    | procInst target inst =>
      simp only [step] at h
      have hres := ih (fun t ht => hns t (List.mem_cons_of_mem _ ht)) (by exact hc) h
      exact hres
    | directive data =>
      simp only [step] at h
      have hres := ih (fun t ht => hns t (List.mem_cons_of_mem _ ht)) (by exact hc) h
      exact hres
    | comment data =>
      simp only [step] at h
      exact ih (fun t ht => hns t (List.mem_cons_of_mem _ ht)) hc h

/-! ## Tree-shape invariant preservation -/

/-- Predicate `TreeInv` only looks at `Parent` and `Children`, so it transfers along
any transformation of the arena preserving both in both directions. -/
theorem treeInv_congr {ns ns1 : List Node}
    (hfwd : ∀ (j : Nat) (nd1 : Node), ns1[j]? = some nd1 →
       ∃ nd : Node, ns[j]? = some nd ∧ nd1.Parent = nd.Parent ∧
         nd1.Children = nd.Children)
    (hbwd : ∀ (j : Nat) (nd : Node), ns[j]? = some nd →
       ∃ nd1 : Node, ns1[j]? = some nd1 ∧ nd1.Parent = nd.Parent ∧
         nd1.Children = nd.Children)
    (hinv : TreeInv ns) : TreeInv ns1 := by
  intro j nd1 hj1
  obtain ⟨nd, hj, hp, hc⟩ := hfwd j nd1 hj1
  obtain ⟨hpw, hch, hpar⟩ := hinv j nd hj
  refine ⟨hc ▸ hpw, ?_, ?_⟩
  · intro c hcmem
    obtain ⟨hlt, cd, hcd, hcdp⟩ := hch c (hc ▸ hcmem)
    obtain ⟨cd1, hcd1, hcd1p, _⟩ := hbwd c cd hcd
    exact ⟨hlt, cd1, hcd1, hcd1p.trans hcdp⟩
  · intro p hpeq
    obtain ⟨hlt, pd, hpd, hpdm⟩ := hpar p (hp ▸ hpeq)
    obtain ⟨pd1, hpd1, _, hpd1c⟩ := hbwd p pd hpd
    exact ⟨hlt, pd1, hpd1, hpd1c ▸ hpdm⟩

/-- Each step preserves the structural invariant and cursor validity. -/
theorem step_inv {preserve : Bool} {st st1 : BuildState} {t : Token}
    (h : step preserve st t = some st1)
    (hinv : TreeInv st.nodes) (hcur : CursorOk st) :
    TreeInv st1.nodes ∧ CursorOk st1 := by
  cases t with
  | startElement name attrs =>
    cases hc : st.cursor with
    | none =>
      simp only [step, hc] at h
      cases h
      constructor
      · -- TreeInv of st.nodes ++ [el] with el.Parent = none
        intro j nd hj
        have hjlen : j < st.nodes.length + 1 := by
          simpa using lt_length_of_getElem hj
        by_cases hjn : j = st.nodes.length
        · subst hjn
          rw [List.getElem?_concat_length] at hj
          cases hj
          exact ⟨List.Pairwise.nil, by simp, by simp⟩
        · have hjlt : j < st.nodes.length := by omega
          rw [getElem_append_lt _ _ _ hjlt] at hj
          obtain ⟨hpw, hch, hpar⟩ := hinv j nd hj
          refine ⟨hpw, ?_, ?_⟩
          · intro c hcm
            obtain ⟨hlt, cd, hcd, hcdp⟩ := hch c hcm
            exact ⟨hlt, cd,
              by rw [getElem_append_lt _ _ _ (lt_length_of_getElem hcd)]; exact hcd,
              hcdp⟩
          · intro p hpe
            obtain ⟨hlt, pd, hpd, hpdm⟩ := hpar p hpe
            exact ⟨hlt, pd,
              by rw [getElem_append_lt _ _ _ (lt_length_of_getElem hpd)]; exact hpd,
              hpdm⟩
      · -- CursorOk
        intro i hi
        cases hi
        simp
    | some p =>
      have hp : p < st.nodes.length := hcur p hc
      obtain ⟨pd0, hpd0⟩ : ∃ pd0 : Node, st.nodes[p]? = some pd0 :=
        ⟨st.nodes[p], List.getElem?_eq_getElem hp⟩
      simp only [step, hc] at h
      cases h
      -- abbreviations for the new arena
      have hplt1 : p < (st.nodes ++
          [{ Parent := some p, Name := name.Local,
             Attributes := attrs.map mkAttribute, Children := [],
             Text := "" }] : List Node).length := by simp; omega
      constructor
      · intro j nd hj
        have hjlen : j < st.nodes.length + 1 := by
          have := lt_length_of_getElem hj
          simpa [modifyNode_length] using this
        by_cases hjp : j = p
        · -- the parent node: children extended with the new index
          subst hjp
          rw [getElem_modifyNode_self, getElem_append_lt _ _ _ hp, hpd0] at hj
          cases hj
          obtain ⟨hpw, hch, hpar⟩ := hinv j pd0 hpd0
          refine ⟨?_, ?_, ?_⟩
          · -- pairwise on pd0.Children ++ [length]
            rw [List.pairwise_append]
            refine ⟨hpw, List.pairwise_singleton _ _, ?_⟩
            intro a ha b hb
            rw [List.mem_singleton] at hb
            subst hb
            obtain ⟨_, cd, hcd, _⟩ := hch a ha
            exact lt_length_of_getElem hcd
          · intro c hcm
            rw [List.mem_append] at hcm
            cases hcm with
            | inl hcm =>
              obtain ⟨hlt, cd, hcd, hcdp⟩ := hch c hcm
              have hclt : c < st.nodes.length := lt_length_of_getElem hcd
              have hcnej : c ≠ j := Nat.ne_of_gt hlt
              refine ⟨hlt, cd, ?_, hcdp⟩
              rw [getElem_modifyNode_ne _ _ _ _ hcnej,
                getElem_append_lt _ _ _ hclt]
              exact hcd
            | inr hcm =>
              rw [List.mem_singleton] at hcm
              subst hcm
              refine ⟨hp, ⟨{ Parent := some j, Name := name.Local,
                             Attributes := attrs.map mkAttribute,
                             Children := [], Text := "" }, ?_, rfl⟩⟩
              rw [getElem_modifyNode_ne _ _ _ _ (by omega : st.nodes.length ≠ j),
                List.getElem?_concat_length]
          · intro q hqe
            obtain ⟨hlt, qd, hqd, hqdm⟩ := hpar q hqe
            have hqlt : q < st.nodes.length := lt_length_of_getElem hqd
            have hqnep : q ≠ j := Nat.ne_of_lt hlt
            refine ⟨hlt, qd, ?_, hqdm⟩
            rw [getElem_modifyNode_ne _ _ _ _ hqnep,
              getElem_append_lt _ _ _ hqlt]
            exact hqd
        · by_cases hjn : j = st.nodes.length
          · -- the freshly allocated node
            subst hjn
            rw [getElem_modifyNode_ne _ _ _ _ hjp,
              List.getElem?_concat_length] at hj
            cases hj
            refine ⟨List.Pairwise.nil, by simp, ?_⟩
            intro q hqe
            cases hqe
            refine ⟨hp, ⟨{ pd0 with Children := pd0.Children ++ [st.nodes.length] },
                         ?_, ?_⟩⟩
            · rw [getElem_modifyNode_self, getElem_append_lt _ _ _ hp, hpd0]
              rfl
            · simp
          · -- an untouched old node
            have hjlt : j < st.nodes.length := by omega
            rw [getElem_modifyNode_ne _ _ _ _ hjp,
              getElem_append_lt _ _ _ hjlt] at hj
            obtain ⟨hpw, hch, hpar⟩ := hinv j nd hj
            refine ⟨hpw, ?_, ?_⟩
            · intro c hcm
              obtain ⟨hlt, cd, hcd, hcdp⟩ := hch c hcm
              have hclt : c < st.nodes.length := lt_length_of_getElem hcd
              by_cases hcp : c = p
              · subst hcp
                refine ⟨hlt, { pd0 with Children := pd0.Children ++ [st.nodes.length] }, ?_, ?_⟩
                · rw [getElem_modifyNode_self, getElem_append_lt _ _ _ hp, hpd0]
                  rfl
                · have : cd = pd0 := by rw [hcd] at hpd0; exact Option.some.inj hpd0
                  subst this
                  exact hcdp
              · refine ⟨hlt, cd, ?_, hcdp⟩
                rw [getElem_modifyNode_ne _ _ _ _ hcp,
                  getElem_append_lt _ _ _ hclt]
                exact hcd
            · intro q hqe
              obtain ⟨hlt, qd, hqd, hqdm⟩ := hpar q hqe
              have hqlt : q < st.nodes.length := lt_length_of_getElem hqd
              by_cases hqp : q = p
              · subst hqp
                refine ⟨hlt, { pd0 with Children := pd0.Children ++ [st.nodes.length] }, ?_, ?_⟩
                · rw [getElem_modifyNode_self, getElem_append_lt _ _ _ hp, hpd0]
                  rfl
                · have : qd = pd0 := by rw [hqd] at hpd0; exact Option.some.inj hpd0
                  subst this
                  simp [hqdm]
              · refine ⟨hlt, qd, ?_, hqdm⟩
                rw [getElem_modifyNode_ne _ _ _ _ hqp,
                  getElem_append_lt _ _ _ hqlt]
                exact hqd
      · intro i hi
        cases hi
        simp [modifyNode_length]
  | endElement name =>
    cases hc : st.cursor with
    | none => simp [step, hc] at h
    | some i =>
      cases hi : st.nodes[i]? with
      | none => simp [step, hc, hi] at h
      | some nd =>
        simp only [step, hc, hi] at h
        cases h
        refine ⟨hinv, ?_⟩
        intro q hq
        obtain ⟨_, _, hpar⟩ := hinv i nd hi
        obtain ⟨_, pd, hpd, _⟩ := hpar q hq
        exact lt_length_of_getElem hpd
  | charData data =>
    cases hc : st.cursor with
    | none =>
      simp only [step, hc] at h
      cases h
      exact ⟨hinv, hcur⟩
    | some i =>
      simp only [step, hc] at h
      cases h
      constructor
      · refine treeInv_congr ?_ ?_ hinv
        · intro j nd1 hj1
          by_cases hji : j = i
          · subst hji
            rw [getElem_modifyNode_self] at hj1
            cases hnd : st.nodes[j]? with
            | none => rw [hnd] at hj1; cases hj1
            | some nd =>
              rw [hnd] at hj1
              simp only [Option.map_some'] at hj1
              have hnd1 := (Option.some.inj hj1).symm
              subst hnd1
              exact ⟨nd, rfl, rfl, rfl⟩
          · rw [getElem_modifyNode_ne _ _ _ _ hji] at hj1
            exact ⟨nd1, hj1, rfl, rfl⟩
        · intro j nd hj
          by_cases hji : j = i
          · subst hji
            refine ⟨{ nd with Text := if preserve then data else trimSpace data },
              ?_, rfl, rfl⟩
            rw [getElem_modifyNode_self, hj]
            rfl
          · refine ⟨nd, ?_, rfl, rfl⟩
            rw [getElem_modifyNode_ne _ _ _ _ hji]
            exact hj
      · intro q hq
        have hq2 : i = q := Option.some.inj hq
        subst hq2
        simpa [modifyNode_length] using hcur i hc
  | procInst target inst =>
    simp only [step] at h
    cases h
    exact ⟨hinv, hcur⟩
  | directive data =>
    simp only [step] at h
    cases h
    exact ⟨hinv, hcur⟩
  | comment data =>
    simp only [step] at h
    cases h
    exact ⟨hinv, hcur⟩

/-- The structural invariant holds at the end of every successful run. -/
theorem runTokens_inv {preserve : Bool} {st st1 : BuildState}
    {tokens : List Token}
    (h : runTokens preserve st tokens = some st1)
    (hinv : TreeInv st.nodes) (hcur : CursorOk st) :
    TreeInv st1.nodes ∧ CursorOk st1 := by
  induction tokens generalizing st with
  | nil => cases h; exact ⟨hinv, hcur⟩
  | cons t rest ih =>
    simp only [runTokens] at h
    cases hs : step preserve st t with
    | none => rw [hs] at h; cases h
    | some st2 =>
      rw [hs] at h
      obtain ⟨hinv2, hcur2⟩ := step_inv hs hinv hcur
      exact ih h hinv2 hcur2

theorem treeInv_nil : TreeInv [] := by
  intro i nd h
  simp at h

theorem cursorOk_init : CursorOk initState := by
  intro i h
  simp [initState] at h

/-- Function `step` on a start-element token never fails, and the successor state is
reached at one more open element. -/
theorem step_start_total {preserve : Bool} {st : BuildState} {d : Nat}
    (name : XmlName) (attrs : List XmlAttr)
    (hch : ChainFrom st.nodes st.cursor d) :
    ∃ st2, step preserve st (Token.startElement name attrs) = some st2 ∧
      ChainFrom st2.nodes st2.cursor (d + 1) := by
  cases hstep : step preserve st (Token.startElement name attrs) with
  | none =>
    cases hc : st.cursor <;> simp [step, hc] at hstep
  | some st2 =>
    refine ⟨st2, rfl, ?_⟩
    have hkeep := (step_keep hstep).1
    have htail : ChainFrom st2.nodes st.cursor d :=
      chainFrom_mono
        (fun j nd hj => by
          obtain ⟨nd1, h1, hp, _⟩ := hkeep j nd hj
          exact ⟨nd1, h1, hp⟩) hch
    -- the new node sits at index st.nodes.length with Parent = old cursor
    have hcur2 : st2.cursor = some st.nodes.length := by
      cases hc : st.cursor <;> simp only [step, hc] at hstep <;> cases hstep <;> rfl
    have hlook : ∃ nd2 : Node, st2.nodes[st.nodes.length]? = some nd2 ∧
        nd2.Parent = st.cursor := by
      cases hc : st.cursor with
      | none =>
        simp only [step, hc] at hstep
        cases hstep
        exact ⟨_, List.getElem?_concat_length _ _, rfl⟩
      | some p =>
        have hp : p < st.nodes.length := by
          rw [hc] at hch
          cases hch with
          | cons i nd d hget htail => exact lt_length_of_getElem hget
        simp only [step, hc] at hstep
        cases hstep
        refine ⟨{ Parent := some p, Name := name.Local,
                  Attributes := attrs.map mkAttribute,
                  Children := [], Text := "" }, ?_, rfl⟩
        rw [getElem_modifyNode_ne _ _ _ _ (by omega : st.nodes.length ≠ p),
          List.getElem?_concat_length]
    obtain ⟨nd2, hnd2, hpar2⟩ := hlook
    rw [hcur2]
    exact ChainFrom.cons _ nd2 d hnd2 (hpar2 ▸ htail)

/-- On a balanced token list the loop never dereferences a nil cursor: the
run completes. -/
theorem runTokens_total {preserve : Bool} {st : BuildState}
    {tokens : List Token} {d : Nat}
    (hch : ChainFrom st.nodes st.cursor d)
    (hok : okEnds d tokens = true) :
    ∃ st1, runTokens preserve st tokens = some st1 := by
  induction tokens generalizing st d with
  | nil => exact ⟨st, rfl⟩
  | cons t rest ih =>
    cases t with
    | startElement name attrs =>
      obtain ⟨st2, hs, hch2⟩ := step_start_total name attrs hch
      simp only [okEnds] at hok
      obtain ⟨st1, h1⟩ := ih hch2 hok
      exact ⟨st1, by simp only [runTokens]; rw [hs]; exact h1⟩
    | endElement name =>
      cases d with
      | zero => simp [okEnds] at hok
      | succ d1 =>
        simp only [okEnds] at hok
        cases hc : st.cursor with
        | none => rw [hc] at hch; cases hch
        | some i =>
          rw [hc] at hch
          cases hch with
          | cons i2 nd d2 hget htail =>
            have hs : step preserve st (Token.endElement name) =
                some { st with cursor := nd.Parent } := by
              simp [step, hc, hget]
            have hch2 : ChainFrom
                ({ st with cursor := nd.Parent } : BuildState).nodes
                ({ st with cursor := nd.Parent } : BuildState).cursor d1 := htail
            obtain ⟨st1, h1⟩ := ih hch2 hok
            exact ⟨st1, by simp only [runTokens]; rw [hs]; exact h1⟩
    | charData data =>
      simp only [okEnds] at hok
      cases hc : st.cursor with
      | none =>
        have hs : step preserve st (Token.charData data) = some st := by
          simp [step, hc]
        obtain ⟨st1, h1⟩ := ih hch hok
        exact ⟨st1, by simp only [runTokens]; rw [hs]; exact h1⟩
      | some i =>
        have hs : step preserve st (Token.charData data) =
            some { st with nodes := modifyNode st.nodes i (fun nd => { nd with Text := if preserve then data else trimSpace data }) } := by
          simp [step, hc]
        have hch2 : ChainFrom
            ({ st with nodes := modifyNode st.nodes i (fun nd => { nd with Text := if preserve then data else trimSpace data }) } : BuildState).nodes
            ({ st with nodes := modifyNode st.nodes i (fun nd => { nd with Text := if preserve then data else trimSpace data }) } : BuildState).cursor d := by
          refine chainFrom_mono ?_ hch
          intro j nd hj
          by_cases hji : j = i
          · subst hji
            refine ⟨{ nd with Text := if preserve then data else trimSpace data },
                    ?_, rfl⟩
            rw [getElem_modifyNode_self, hj]
            rfl
          · exact ⟨nd, by rw [getElem_modifyNode_ne _ _ _ _ hji]; exact hj, rfl⟩
        obtain ⟨st1, h1⟩ := ih hch2 hok
        exact ⟨st1, by simp only [runTokens]; rw [hs]; exact h1⟩
    | procInst target inst =>
      simp only [okEnds] at hok
      have hch2 : ChainFrom
          ({ st with ProcInst := stringifyProcInst target inst } :
            BuildState).nodes
          ({ st with ProcInst := stringifyProcInst target inst } :
            BuildState).cursor d := hch
      obtain ⟨st1, h1⟩ := ih hch2 hok
      refine ⟨st1, ?_⟩
      have hs : step preserve st (Token.procInst target inst) =
          some { st with ProcInst := stringifyProcInst target inst } := by
        simp [step]
      simp only [runTokens]; rw [hs]; exact h1
    | directive data =>
      simp only [okEnds] at hok
      have hch2 : ChainFrom
          ({ st with Directives := st.Directives ++ [stringifyDirective data] } :
            BuildState).nodes
          ({ st with Directives := st.Directives ++ [stringifyDirective data] } :
            BuildState).cursor d := hch
      obtain ⟨st1, h1⟩ := ih hch2 hok
      refine ⟨st1, ?_⟩
      have hs : step preserve st (Token.directive data) =
          some { st with Directives := st.Directives ++ [stringifyDirective data] } := by
        simp [step]
      simp only [runTokens]; rw [hs]; exact h1
    | comment data =>
      simp only [okEnds] at hok
      obtain ⟨st1, h1⟩ := ih hch hok
      refine ⟨st1, ?_⟩
      have hs : step preserve st (Token.comment data) = some st := by
        simp [step]
      simp only [runTokens]; rw [hs]; exact h1

/-- A successful `Parse` is a completed run over a non-empty token list with
`eof` termination. -/
theorem parse_ok_elim {preserve : Bool} {tokens : List Token}
    {stop : XmlError} {d : Document}
    (h : Parse preserve tokens stop = some (Except.ok d)) :
    ∃ st : BuildState, runTokens preserve initState tokens = some st ∧
      d = extractDoc st := by
  cases tokens with
  | nil => simp [Parse] at h
  | cons t rest =>
    simp only [Parse] at h
    cases hr : runTokens preserve initState (t :: rest) with
    | none => rw [hr] at h; cases h
    | some st =>
      rw [hr] at h
      have h2 : (if stop = XmlError.eof then some (Except.ok (extractDoc st))
          else some (Except.error stop)) = some (Except.ok d) := h
      by_cases he : stop = XmlError.eof
      · subst he
        rw [if_pos rfl] at h2
        exact ⟨st, rfl, (Except.ok.inj (Option.some.inj h2)).symm⟩
      · rw [if_neg he] at h2
        simp at h2

theorem isStart_eq_true_iff (t : Token) :
    isStart t = true ↔
      ∃ (n : XmlName) (a : List XmlAttr), t = Token.startElement n a := by
  cases t <;> simp [isStart]

/-- A one-node build state with the cursor on that node: the state reached
after processing `<foo>`. -/
def demoOpenFoo : BuildState :=
  { nodes := [{ Parent := none, Name := "foo", Attributes := [],
                Children := [], Text := "" }],
    Root := some 0, ProcInst := "", Directives := [], cursor := some 0 }

/-- The token stream of `<a><b></b></a>`. -/
def demoTokens : List Token :=
  [Token.startElement ⟨"", "a"⟩ [], Token.startElement ⟨"", "b"⟩ [],
   Token.endElement ⟨"", "b"⟩, Token.endElement ⟨"", "a"⟩]

/-- The build state `demoTokens` ends in. -/
def demoFinal : BuildState :=
  { nodes := [{ Parent := none, Name := "a", Attributes := [],
                Children := [1], Text := "" },
              { Parent := some 0, Name := "b", Attributes := [],
                Children := [], Text := "" }],
    Root := some 0, ProcInst := "", Directives := [], cursor := none }

/-! ## Claims -/

/-- C1 (counterexample): parsing an input whose token source reports
end-of-input before producing any token does NOT succeed: the Go code
returns the first pull's error — here `io.EOF` itself — so the caller gets
an error and no Document (dom.go lines 100–103). -/
theorem parse_empty_input_returns_error :
    Parse false [] XmlError.eof = some (Except.error XmlError.eof) := rfl

/-- C1 (amended): when the very first token pull fails — also when it
fails with end-of-input on an empty byte stream — that error is propagated
and no Document is returned; a whitespace-only stream, whose token source
yields one character-data token before end-of-input, parses successfully
into a Document with root absent. -/
theorem parse_first_pull_error_propagated (preserve : Bool)
    (stop : XmlError) (w : String) :
    Parse preserve [] stop = some (Except.error stop) ∧
    ∃ d : Document, Parse preserve [Token.charData w] XmlError.eof =
      some (Except.ok d) ∧ d.Root = none := by
  exact ⟨rfl, extractDoc initState, rfl, rfl⟩

/-- C2: an attribute whose namespace field is non-empty and not one of the
four reserved URLs is stored under the name composed of that field's string,
used verbatim as the output prefix, a colon, and the local name
(dom.go lines 128–130). -/
theorem attr_nonreserved_prefix_verbatim (a : XmlAttr)
    (hne : a.Name.Space ≠ "")
    (h1 : a.Name.Space ≠ xmlnsUrl) (h2 : a.Name.Space ≠ xmlUrl)
    (h3 : a.Name.Space ≠ xlinkUrl) (h4 : a.Name.Space ≠ xsiUrl) :
    mkAttribute a =
      { Name := a.Name.Space ++ ":" ++ a.Name.Local, Value := a.Value } := by
  simp [mkAttribute, attrName, hne, h1, h2, h3, h4]

theorem attr_nonreserved_prefix_verbatim_witness :
    mkAttribute ⟨⟨"http://example.com/ns", "href"⟩, "X"⟩ =
      { Name := "http://example.com/ns" ++ ":" ++ "href", Value := "X" } :=
  attr_nonreserved_prefix_verbatim ⟨⟨"http://example.com/ns", "href"⟩, "X"⟩
    (by decide) (by decide) (by decide) (by decide) (by decide)

/-- C3: attributes under the four reserved namespace URLs are stored with
exactly the fixed prefixes `xmlns`, `xml`, `xlink`, `xsi` (whatever prefix
the source text used is not part of the token), and an attribute with no
namespace URI is stored under its bare local name
(dom.go lines 115–133). -/
theorem attr_reserved_fixed_mapping (l v : String) :
    mkAttribute ⟨⟨xmlnsUrl, l⟩, v⟩ = { Name := "xmlns" ++ ":" ++ l, Value := v } ∧
    mkAttribute ⟨⟨xmlUrl, l⟩, v⟩ = { Name := "xml" ++ ":" ++ l, Value := v } ∧
    mkAttribute ⟨⟨xlinkUrl, l⟩, v⟩ = { Name := "xlink" ++ ":" ++ l, Value := v } ∧
    mkAttribute ⟨⟨xsiUrl, l⟩, v⟩ = { Name := "xsi" ++ ":" ++ l, Value := v } ∧
    mkAttribute ⟨⟨"", l⟩, v⟩ = { Name := l, Value := v } :=
  ⟨rfl, rfl, rfl, rfl, rfl⟩

/-- C4: a character-data token with an open cursor overwrites that node's
`Text` with the token's content under the whitespace policy (trimmed when
`preserveWhitespace` is false, verbatim when true), leaving every other
node and every other field of the state unchanged; with no cursor the data
is discarded and the state is unchanged (dom.go lines 149–157). -/
theorem charData_sets_text_per_policy (preserve : Bool) (st : BuildState)
    (data : String) :
    (st.cursor = none → step preserve st (Token.charData data) = some st) ∧
    (∀ i : Nat, st.cursor = some i →
      ∃ st1 : BuildState, step preserve st (Token.charData data) = some st1 ∧
        (∀ nd : Node, st.nodes[i]? = some nd →
          st1.nodes[i]? =
            some { nd with Text := if preserve then data else trimSpace data }) ∧
        (∀ j : Nat, j ≠ i → st1.nodes[j]? = st.nodes[j]?) ∧
        st1.cursor = st.cursor ∧ st1.Root = st.Root ∧
        st1.ProcInst = st.ProcInst ∧ st1.Directives = st.Directives) := by
  constructor
  · intro hc
    simp [step, hc]
  · intro i hc
    refine ⟨{ st with nodes := modifyNode st.nodes i (fun nd => { nd with Text := if preserve then data else trimSpace data }) },
            ?_, ?_, ?_, rfl, rfl, rfl, rfl⟩
    · simp [step, hc]
    · intro nd hnd
      rw [getElem_modifyNode_self, hnd]
      rfl
    · intro j hj
      rw [getElem_modifyNode_ne _ _ _ _ hj]

theorem charData_sets_text_per_policy_witness :
    demoOpenFoo.cursor = some 0 ∧
    ∃ st1 : BuildState,
      step false demoOpenFoo (Token.charData " bar ") = some st1 ∧
      (∀ nd : Node, demoOpenFoo.nodes[0]? = some nd →
        st1.nodes[0]? =
          some { nd with Text := if false then " bar " else trimSpace " bar " }) ∧
      (∀ j : Nat, j ≠ 0 → st1.nodes[j]? = demoOpenFoo.nodes[j]?) ∧
      st1.cursor = demoOpenFoo.cursor ∧ st1.Root = demoOpenFoo.Root ∧
      st1.ProcInst = demoOpenFoo.ProcInst ∧
      st1.Directives = demoOpenFoo.Directives :=
  ⟨rfl, (charData_sets_text_per_policy false demoOpenFoo " bar ").2 0 rfl⟩

/-- C8: a processing-instruction token overwrites `Document.ProcInst` (so
the last one wins), and a directive token appends to `Document.Directives`
(so all are retained in document order); nothing else changes
(dom.go lines 158–161). -/
theorem procInst_overwrites_directive_appends (preserve : Bool)
    (st : BuildState) (target inst data t2 i2 : String) :
    step preserve st (Token.procInst target inst) =
      some { st with ProcInst := stringifyProcInst target inst } ∧
    step preserve st (Token.directive data) =
      some { st with Directives := st.Directives ++ [stringifyDirective data] } ∧
    runTokens preserve st [Token.procInst target inst, Token.procInst t2 i2] =
      some { st with ProcInst := stringifyProcInst t2 i2 } :=
  ⟨rfl, rfl, rfl⟩

/-- C10: a token of a kind the type switch does not handle — the comment
token — is skipped: the state, hence the Document under construction, the
cursor and every node, is returned unchanged (dom.go lines 107–162). -/
theorem unhandled_token_skipped (preserve : Bool) (st : BuildState)
    (c : String) :
    step preserve st (Token.comment c) = some st := rfl

/-- C5: on a successful parse the root is set if and only if some
start-element token occurred; and when the tokens split as a prefix with no
start-element followed by the first start-element token, the root is that
element: its stored name is the tag's local name (the tag's own namespace
field is discarded) and its parent is absent
(dom.go lines 109–146). -/
theorem root_iff_start_token (preserve : Bool) (tokens : List Token)
    (stop : XmlError) (d : Document)
    (h : Parse preserve tokens stop = some (Except.ok d)) :
    ((d.Root.isSome = true) ↔
      ∃ (n : XmlName) (a : List XmlAttr), Token.startElement n a ∈ tokens) ∧
    (∀ (pre post : List Token) (n : XmlName) (a : List XmlAttr),
      tokens = pre ++ Token.startElement n a :: post →
      (∀ t ∈ pre, isStart t = false) →
      ∃ (r : Nat) (nd : Node), d.Root = some r ∧ d.nodes[r]? = some nd ∧
        nd.Name = n.Local ∧ nd.Parent = none) := by
  obtain ⟨st, hrun, hd⟩ := parse_ok_elim h
  subst hd
  constructor
  · have hiso := runTokens_root_isSome hrun
    have hinit : initState.Root.isSome = false := rfl
    rw [hinit, Bool.false_or] at hiso
    show st.Root.isSome = true ↔ _
    rw [hiso, List.any_eq_true]
    constructor
    · rintro ⟨t, hmem, hts⟩
      obtain ⟨n, a, rfl⟩ := (isStart_eq_true_iff t).mp hts
      exact ⟨n, a, hmem⟩
    · rintro ⟨n, a, hmem⟩
      exact ⟨Token.startElement n a, hmem, rfl⟩
  · intro pre post n a htok hpre
    subst htok
    rw [runTokens_append] at hrun
    cases hp : runTokens preserve initState pre with
    | none => rw [hp] at hrun; cases hrun
    | some stp =>
      rw [hp] at hrun
      obtain ⟨hnodes, hcur, hroot⟩ := runTokens_no_start hpre rfl hp
      have hnodes2 : stp.nodes = [] := hnodes
      have hroot2 : stp.Root = none := hroot
      have hstep : step preserve stp (Token.startElement n a) =
          some { stp with nodes := [{ Parent := none, Name := n.Local, Attributes := a.map mkAttribute, Children := [], Text := "" }], cursor := some 0, Root := some 0 } := by
        simp [step, hcur, hroot2, hnodes2]
      simp only [runTokens] at hrun
      rw [hstep] at hrun
      have hrun2 : runTokens preserve
          ({ stp with nodes := [{ Parent := none, Name := n.Local, Attributes := a.map mkAttribute, Children := [], Text := "" }], cursor := some 0, Root := some 0 } : BuildState) post = some st := hrun
      obtain ⟨hkeep, hrootkeep⟩ := runTokens_keep hrun2
      have hroot_st : st.Root = some 0 := hrootkeep 0 rfl
      obtain ⟨nd1, hnd1, hp1, hn1, _, _⟩ :=
        hkeep 0 { Parent := none, Name := n.Local,
                  Attributes := a.map mkAttribute, Children := [],
                  Text := "" } rfl
      exact ⟨0, nd1, hroot_st, hnd1, hn1, hp1⟩

theorem root_iff_start_token_witness :
    Parse false [Token.startElement ⟨"", "foo"⟩ [], Token.endElement ⟨"", "foo"⟩]
        XmlError.eof =
      some (Except.ok { nodes := [{ Parent := none, Name := "foo", Attributes := [], Children := [], Text := "" }], Root := some 0, ProcInst := "", Directives := [] }) ∧
    (((({ nodes := [{ Parent := none, Name := "foo", Attributes := [], Children := [], Text := "" }], Root := some 0, ProcInst := "", Directives := [] } : Document)).Root.isSome = true) ↔
      ∃ (n : XmlName) (a : List XmlAttr), Token.startElement n a ∈
        [Token.startElement ⟨"", "foo"⟩ [], Token.endElement ⟨"", "foo"⟩]) :=
  ⟨rfl, (root_iff_start_token false
    [Token.startElement ⟨"", "foo"⟩ [], Token.endElement ⟨"", "foo"⟩]
    XmlError.eof _ rfl).1⟩

/-- C6: when the token source terminates with any error other than
end-of-input — on the first pull (empty token list) or any later pull —
whatever `Parse` returns is exactly that error: no Document, not even a
partially built one, is ever returned (dom.go lines 100–103 and
168–171). -/
theorem nonEof_error_propagated (preserve : Bool) (tokens : List Token)
    (msg : String) (r : Except XmlError Document)
    (h : Parse preserve tokens (XmlError.other msg) = some r) :
    r = Except.error (XmlError.other msg) := by
  cases tokens with
  | nil =>
    simp only [Parse] at h
    exact (Option.some.inj h).symm
  | cons t rest =>
    simp only [Parse] at h
    cases hr : runTokens preserve initState (t :: rest) with
    | none => rw [hr] at h; cases h
    | some st =>
      rw [hr] at h
      have h2 : (if XmlError.other msg = XmlError.eof
          then some (Except.ok (extractDoc st))
          else some (Except.error (XmlError.other msg))) = some r := h
      rw [if_neg (by simp)] at h2
      exact (Option.some.inj h2).symm

theorem nonEof_error_propagated_witness :
    Parse false [Token.startElement ⟨"", "a"⟩ []] (XmlError.other "syntax error") =
      some (Except.error (XmlError.other "syntax error")) ∧
    (Except.error (XmlError.other "syntax error") :
        Except XmlError Document) = Except.error (XmlError.other "syntax error") :=
  ⟨rfl, nonEof_error_propagated false [Token.startElement ⟨"", "a"⟩ []]
    "syntax error" _ rfl⟩

/-- C7: every state a run reaches from the initial state is a tree: each
child occurs after its parent (so the parent/child graph is acyclic), each
child's `Parent` points back at the single node listing it (every non-root
node has exactly one parent), and children lists are strictly increasing in
allocation order — the order the start-element tokens were processed, i.e.
document order.  Moreover no step ever rewrites the `Parent` of an existing
node (the parent is set once, at creation), and the node a start-element
allocates stores the token's attributes in source order, via
`List.map mkAttribute` (dom.go lines 111–142). -/
theorem built_tree_is_tree (preserve : Bool) :
    (∀ (tokens : List Token) (st1 : BuildState),
      runTokens preserve initState tokens = some st1 →
      TreeInv st1.nodes ∧
      (∀ (i i2 c : Nat) (nd nd2 : Node), st1.nodes[i]? = some nd →
        st1.nodes[i2]? = some nd2 → c ∈ nd.Children → c ∈ nd2.Children →
        i = i2)) ∧
    (∀ (st st1 : BuildState) (t : Token), step preserve st t = some st1 →
      ∀ (j : Nat) (nd : Node), st.nodes[j]? = some nd →
        ∃ nd1 : Node, st1.nodes[j]? = some nd1 ∧ nd1.Parent = nd.Parent) ∧
    (∀ (st st1 : BuildState) (n : XmlName) (a : List XmlAttr),
      step preserve st (Token.startElement n a) = some st1 →
      ∃ nd : Node, st1.nodes[st.nodes.length]? = some nd ∧
        nd.Attributes = a.map mkAttribute ∧ nd.Parent = st.cursor) := by
  refine ⟨?_, ?_, ?_⟩
  · intro tokens st1 hrun
    obtain ⟨hinv, _⟩ := runTokens_inv hrun treeInv_nil cursorOk_init
    refine ⟨hinv, ?_⟩
    intro i i2 c nd nd2 hnd hnd2 hc hc2
    obtain ⟨_, hch, _⟩ := hinv i nd hnd
    obtain ⟨_, hch2, _⟩ := hinv i2 nd2 hnd2
    obtain ⟨_, cd, hcd, hcdp⟩ := hch c hc
    obtain ⟨_, cd2, hcd2, hcdp2⟩ := hch2 c hc2
    have : cd = cd2 := Option.some.inj (hcd ▸ hcd2)
    subst this
    exact Option.some.inj (hcdp ▸ hcdp2)
  · intro st st1 t hs j nd hj
    obtain ⟨nd1, h1, hp, _⟩ := (step_keep hs).1 j nd hj
    exact ⟨nd1, h1, hp⟩
  · intro st st1 n a hs
    cases hc : st.cursor with
    | none =>
      simp only [step, hc] at hs
      cases hs
      exact ⟨_, List.getElem?_concat_length _ _, rfl, rfl⟩
    | some p =>
      simp only [step, hc] at hs
      cases hs
      by_cases hp : p = st.nodes.length
      · subst hp
        refine ⟨{ Parent := some st.nodes.length, Name := n.Local,
                  Attributes := a.map mkAttribute,
                  Children := [] ++ [st.nodes.length], Text := "" }, ?_, rfl, rfl⟩
        rw [getElem_modifyNode_self, List.getElem?_concat_length]
        rfl
      · refine ⟨{ Parent := some p, Name := n.Local,
                  Attributes := a.map mkAttribute,
                  Children := [], Text := "" }, ?_, rfl, rfl⟩
        rw [getElem_modifyNode_ne _ _ _ _ (fun he => hp he.symm),
          List.getElem?_concat_length]

theorem built_tree_is_tree_witness :
    runTokens false initState demoTokens = some demoFinal ∧
    TreeInv demoFinal.nodes :=
  ⟨rfl, ((built_tree_is_tree false).1 demoTokens demoFinal rfl).1⟩

/-- C9: on a balanced token list — every end-element token arrives while an
element is still open — the run never fails, because the cursor is non-nil
at every end-element token; and conversely an end-element token processed
with a nil cursor is exactly the nil-pointer dereference of
`e = e.Parent` (dom.go lines 147–148), modelled as `none`. -/
theorem balanced_no_nil_cursor_deref (preserve : Bool) :
    (∀ tokens : List Token, okEnds 0 tokens = true →
      ∃ st1 : BuildState, runTokens preserve initState tokens = some st1) ∧
    (∀ (st : BuildState) (n : XmlName), st.cursor = none →
      step preserve st (Token.endElement n) = none) := by
  constructor
  · intro tokens hok
    have hch : ChainFrom initState.nodes initState.cursor 0 := ChainFrom.nil
    exact runTokens_total hch hok
  · intro st n hc
    simp [step, hc]

theorem balanced_no_nil_cursor_deref_witness :
    okEnds 0 demoTokens = true ∧
    (∃ st1 : BuildState, runTokens false initState demoTokens = some st1) ∧
    initState.cursor = none ∧
    step false initState (Token.endElement ⟨"", "a"⟩) = none :=
  ⟨rfl, (balanced_no_nil_cursor_deref false).1 demoTokens rfl, rfl,
   (balanced_no_nil_cursor_deref false).2 initState ⟨"", "a"⟩ rfl⟩

end Xmldom
